import Mathlib

-- Verification development for the bvkgo/subcmd repository: a command-line
-- subcommand router.  The public entry point `Run` and the `Group` constructor
-- are embedded from src/command.go.  The resolver itself (the `cmdGroup.run`
-- method, per-level flag parsing and the built-in "help"/"flags"/"commands"
-- children) is not present under src/ (only its declarations, callers and
-- tests are), so it is modelled from the specification, sections 4.2-4.4.
-- Go's `flag.FlagSet` parsing loop (the "standard flag-parsing semantics" the
-- spec appeals to) is modelled token-by-token after `flag.(*FlagSet).parseOne`.

namespace Subcmd

/-- Embeds a single command-line flag definition of a Go `flag.FlagSet`:
its name, whether it is a boolean flag (boolean flags may omit their value),
and the default value its bound storage starts from. -/
structure Flag where
  name : String
  isBool : Bool
  defVal : String
deriving DecidableEq

/-- Embeds Go's `flag.FlagSet`: a named, ordered collection of flag
definitions.  The name doubles as the subcommand name (src/command.go:60). -/
structure FlagSet where
  name : String
  flags : List Flag
deriving DecidableEq

/-- Classification of one command-line token, mirroring the front part of
Go's `flag.(*FlagSet).parseOne`. -/
inductive TokKind where
  | stop
  | terminator
  | bad
  | flag (name : String) (value : Option String)
deriving DecidableEq

/-- Splits a flag body at the first "=" character: the flag name before it and,
when present, the value after it (which may itself contain "="). -/
def splitEq : List Char → List Char × Option (List Char)
  | [] => ([], none)
  | c :: cs =>
    if c = '=' then ([], some cs)
    else
      let r := splitEq cs
      (c :: r.fst, r.snd)

/-- Analyzes the part of a flag token after its leading minuses, as
`parseOne` does: empty names and names starting with "-" or "=" are bad
syntax, otherwise the token carries the name and optional "="-value. -/
def analyzeName (nm : List Char) : TokKind :=
  match nm with
  | [] => .bad
  | c :: _ =>
    if c = '-' ∨ c = '=' then .bad
    else
      let r := splitEq nm
      .flag (String.mk r.fst) (r.snd.map String.mk)

/-- Modelled from the spec: "standard flag-parsing semantics
(single-dash/double-dash, -flag=value or -flag value forms)".  Tokens shorter
than two characters or not starting with "-" stop flag parsing; "--" alone
terminates it (and is consumed); otherwise one or two minuses are stripped
and the remainder is analyzed as a flag name with optional value.  This is
Go's `parseOne` token classification. -/
def classifyTok (s : String) : TokKind :=
  match s.data with
  | c0 :: c1 :: cs =>
    if c0 = '-' then
      if c1 = '-' then
        match cs with
        | [] => .terminator
        | _ :: _ => analyzeName cs
      else analyzeName (c1 :: cs)
    else .stop
  | _ => .stop

/-- Result of parsing the flags of one level: the updated flag bindings and
residual arguments, a help request (Go's `flag.ErrHelp`), or a parse error. -/
inductive ParseResult where
  | ok (vals : List (String × String)) (rest : List String)
  | help
  | err (msg : String)
deriving DecidableEq

/-- Looks a declared flag up by name (Go's `f.formal[name]`). -/
def findFlag (fs : FlagSet) (n : String) : Option Flag :=
  fs.flags.find? (fun f => decide (f.name = n))

/-- Sets the bound storage of the flag named `n` to `v` (Go's `flag.Set`).
Only existing bindings are updated. -/
def setValue (vals : List (String × String)) (n v : String) : List (String × String) :=
  vals.map (fun p => if p.fst = n then (n, v) else p)

/-- Reads the bound storage of the flag named `n`. -/
def getVal : List (String × String) → String → Option String
  | [], _ => none
  | p :: rest, n => if p.fst = n then some p.snd else getVal rest n

/-- Go's `strconv.ParseBool`: the twelve accepted boolean literals. -/
def parseBool (v : String) : Option Bool :=
  if v = "1" ∨ v = "t" ∨ v = "T" ∨ v = "TRUE" ∨ v = "true" ∨ v = "True" then some true
  else if v = "0" ∨ v = "f" ∨ v = "F" ∨ v = "FALSE" ∨ v = "false" ∨ v = "False" then some false
  else none

/-- Modelled from the spec: per-level flag parsing with "standard
flag-parsing semantics: flags are recognized only while they appear
contiguously from the start of the remaining arguments ... the first token
that does not look like a flag terminates flag parsing for this level.
Special flag -h or -help triggers usage output and a normal (non-error) early
return".  Faithful to Go's `flag.(*FlagSet).parseOne` loop: an unknown flag
named "help" or "h" yields the help result, any other unknown flag is an
error; boolean flags take an optional "="-value, other flags take the
"="-value or consume the next argument. -/
def parseFlags (fs : FlagSet) : List (String × String) → List String → ParseResult
  | vals, [] => .ok vals []
  | vals, s :: rest =>
    match classifyTok s with
    | .stop => .ok vals (s :: rest)
    | .terminator => .ok vals rest
    | .bad => .err ("bad flag syntax: " ++ s)
    | .flag nm val =>
      match findFlag fs nm with
      | none =>
        if nm = "help" ∨ nm = "h" then .help
        else .err ("flag provided but not defined: -" ++ nm)
      | some f =>
        if f.isBool then
          match val with
          | some v =>
            match parseBool v with
            | some b => parseFlags fs (setValue vals nm (if b then "true" else "false")) rest
            | none => .err ("invalid boolean value " ++ v ++ " for -" ++ nm)
          | none => parseFlags fs (setValue vals nm ("true")) rest
        else
          match val with
          | some v => parseFlags fs (setValue vals nm v) rest
          | none =>
            match rest with
            | v :: rest2 => parseFlags fs (setValue vals nm v) rest2
            | [] => .err ("flag needs an argument: -" ++ nm)

/-- True when the token would be parsed as an occurrence of the flag named
`n`; used to express "the flag was not supplied on the command line". -/
def suppliesFlag (tok n : String) : Bool :=
  match classifyTok tok with
  | .flag m _ => decide (m = n)
  | _ => false

/-- Embeds the `Command` capability together with the two concrete node
shapes that occur in the repository: user leaf commands (their `Command()`
method returns the FlagSet and a main function, embedded as the error value
the action returns), `cmdGroup` interior nodes built by `Group`
(src/command.go:70-76), and the synthesized built-in introspection commands.
The `Command()` / `declareFlags` call of a node is the event of the resolver
reading its FlagSet; the trace of those events is recorded by the resolver
below. -/
inductive Cmd where
  | leaf (fs : FlagSet) (actionErr : Option String)
  | group (fs : FlagSet) (subs : List Cmd) (synopsis : String)
  | builtin (kind : String)

/-- FlagSet returned by a node's `Command()` method.  Built-in introspection
commands carry an empty flag set named after themselves. -/
def cflags : Cmd → FlagSet
  | .leaf fs _ => fs
  | .group fs _ _ => fs
  | .builtin k => ⟨k, []⟩

/-- A command's name: the name of the FlagSet its `Command()` method
returns (src/command.go:60-61). -/
def cname (c : Cmd) : String := (cflags c).name

/-- Error value returned by the node's ActionFunc when it is invoked.
Group and built-in actions in the test universe return nil. -/
def actErr : Cmd → Option String
  | .leaf _ e => e
  | _ => none

/-- Modelled from the spec: the three built-in introspection children
"help", "flags" and "commands" synthesized at every group level. -/
def builtinCmds : List Cmd := [.builtin "help", .builtin "flags", .builtin "commands"]

/-- Modelled from the spec: "Append built-in introspection children (help,
flags, commands) to the effective child list if the current node is a group
(skip if the node is a leaf)" where "built-ins are only added if no existing
child occupies that name". -/
def effectiveChildren : Cmd → List Cmd
  | .group _ subs _ => subs ++ builtinCmds.filter (fun b => subs.all (fun s => decide (cname s ≠ cname b)))
  | _ => []

/-- Initial flag bindings of a level: every declared flag holds its default
value (Go initializes the bound storage from the declared default). -/
def defaults (fs : FlagSet) : List (String × String) :=
  fs.flags.map (fun f => (f.name, f.defVal))

/-- Overall result of a `Run` call, as the spec's error taxonomy:
an invoked action's result, the successful -h or -help early exit, the
configuration error for an empty-named FlagSet, a flag parse error, or the
invalid-argument rejection of a nil command list. -/
inductive Outcome where
  | done (err : Option String)
  | helpExit
  | cfgError
  | flagError (msg : String)
  | invalidArg
deriving DecidableEq

/-- Error value `Run` returns to its caller for each outcome: an action's
error is passed through unmodified, -h or -help is "explicitly not an error",
the remaining outcomes surface as errors (os.ErrInvalid for a nil command
list). -/
def errorOf : Outcome → Option String
  | .done e => e
  | .helpExit => none
  | .cfgError => some "subcmd: invalid configuration"
  | .flagError m => some m
  | .invalidArg => some "invalid argument"

/-- Observable trace of one `Run` call: the outcome, the list of node paths
whose `Command()` method was called (in call order), the list of ActionFunc
invocations (node path and the residual arguments passed), and the final
flag bindings of every level whose flags were parsed, keyed by node path. -/
structure RunOut where
  outcome : Outcome
  calls : List (List String)
  invoked : List (List String × List String)
  bindings : List (List String × FlagSet × List (String × String))
deriving DecidableEq

/-- Modelled from the spec: the recursive resolution algorithm (section 4.2),
with explicit fuel so that the recursion is structural; each recursion step
consumes at least the matched child-name token, so `args.length + 1` fuel
always suffices (theorem runAtF_congr).  At each frame: call the node's
`Command()` (recorded in `calls`; fail on an empty FlagSet name), parse
flags from the front of the arguments, then either recurse into the
effective child named by the first positional or invoke this node's
ActionFunc with the residual positionals. -/
def runAtF : Nat → Cmd → List String → List String → RunOut
  | 0, _, path, _ => RunOut.mk .cfgError [path] [] []
  | fuel+1, c, path, args =>
    let fs := cflags c
    if fs.name = "" then RunOut.mk .cfgError [path] [] []
    else
      match parseFlags fs (defaults fs) args with
      | .help => RunOut.mk .helpExit [path] [] []
      | .err m => RunOut.mk (.flagError m) [path] [] []
      | .ok vals rest =>
        match rest with
        | [] => RunOut.mk (.done (actErr c)) [path] [(path, [])] [(path, fs, vals)]
        | tok :: rest2 =>
          match (effectiveChildren c).find? (fun s => decide (cname s = tok)) with
          | some child =>
            let sub := runAtF fuel child (path ++ [tok]) rest2
            RunOut.mk sub.outcome (path :: sub.calls) sub.invoked ((path, fs, vals) :: sub.bindings)
          | none => RunOut.mk (.done (actErr c)) [path] [(path, tok :: rest2)] [(path, fs, vals)]

/-- Modelled from the spec: the resolver's internal `run` method, entered at
node `c` whose name path from the root is `path`, with `args` remaining. -/
def runAt (c : Cmd) (path args : List String) : RunOut :=
  runAtF (args.length + 1) c path args

/-- Embeds `Run` from src/command.go:82-91: rejects a nil command list with
os.ErrInvalid, otherwise wraps the commands in an anonymous root group over
the process-global `flag.CommandLine` set (passed here explicitly as
`commandLine`) and delegates to the resolver.  A Go nil slice is `none`, a
non-nil list is `some`.  The context argument is opaque to the resolver and
omitted. -/
def Run (commandLine : FlagSet) (cmds : Option (List Cmd)) (args : List String) : RunOut :=
  match cmds with
  | none => RunOut.mk .invalidArg [] [] []
  | some cs => runAt (Cmd.group commandLine cs "") [] args

/-- Embeds `Group` from src/command.go:70-76: an interior node with a fresh
flag-less FlagSet named `name`. -/
def Group (name description : String) (cmds : List Cmd) : Cmd :=
  Cmd.group ⟨name, []⟩ cmds description

/-- Name-resolution walk along exact child names: the node reached from `c`
by matching each successive name against the effective children. -/
def descend (c : Cmd) : List String → Option Cmd
  | [] => some c
  | n :: ns =>
    match (effectiveChildren c).find? (fun s => decide (cname s = n)) with
    | some child => descend child ns
    | none => none

/-- The nodes visited by `descend`, including the start node and the node
reached. -/
def chainNodes (c : Cmd) : List String → List Cmd
  | [] => [c]
  | n :: ns =>
    match (effectiveChildren c).find? (fun s => decide (cname s = n)) with
    | some child => c :: chainNodes child ns
    | none => [c]

/-- The test tree of src/run_test.go: the `run` leaf with its boolean
`-background` flag. -/
def runCmd : Cmd := .leaf ⟨"run", [⟨"background", true, "false"⟩]⟩ none

/-- The `jobs` group of src/run_test.go with its `list` and `summary`
children. -/
def jobsCmd : Cmd :=
  Group "jobs" "manage jobs"
    [.leaf ⟨"list", [⟨"format", false, "json"⟩]⟩ none,
     .leaf ⟨"summary", [⟨"format", false, "json"⟩]⟩ none]

/-- The `job` group of src/run_test.go. -/
def jobCmd : Cmd :=
  Group "job" "manage single job"
    [.leaf ⟨"pause", [⟨"timeout", false, "0s"⟩]⟩ none,
     .leaf ⟨"resume", [⟨"timeout", false, "0s"⟩]⟩ none,
     .leaf ⟨"cancel", [⟨"after", false, "0s"⟩]⟩ none,
     .leaf ⟨"archive", []⟩ none,
     .leaf ⟨"delete", []⟩ none]

/-- The `db` group of src/run_test.go. -/
def dbCmd : Cmd :=
  Group "db" "manage database"
    [.leaf ⟨"get", []⟩ none,
     .leaf ⟨"set", []⟩ none,
     .leaf ⟨"delete", []⟩ none,
     .leaf ⟨"scan", []⟩ none,
     .leaf ⟨"backup", []⟩ none]

/-- The top-level command list of TestRun. -/
def testCmds : List Cmd := [runCmd, jobsCmd, jobCmd, dbCmd]

/-- The process-global flag set of the test binary: non-empty name, no
user-declared global flags. -/
def testCL : FlagSet := ⟨"subcmd.test", []⟩

/-- A leaf that declares its own boolean flag named "h"; used to probe the
interaction of -h with a same-named user flag. -/
def shadowHLeaf : Cmd := .leaf ⟨"run", [⟨"h", true, "false"⟩]⟩ none

/-- First of two sibling commands sharing the name "dup". -/
def dupFirst : Cmd := .leaf ⟨"dup", []⟩ (some "first")

/-- Second of two sibling commands sharing the name "dup". -/
def dupSecond : Cmd := .leaf ⟨"dup", []⟩ (some "second")

theorem parse_len (fs : FlagSet) (vals : List (String × String)) (args : List String) :
    ∀ vals' rest, parseFlags fs vals args = .ok vals' rest → rest.length ≤ args.length := by
  induction vals, args using parseFlags.induct fs with
  | case1 vals => intro vals' rest hp; cases hp; simp
  | case2 vals s rest hc =>
    intro vals' rest' hp
    simp only [parseFlags, hc] at hp
    cases hp; simp
  | case3 vals s rest hc =>
    intro vals' rest' hp
    simp only [parseFlags, hc] at hp
    cases hp; simp
  | case4 vals s rest hc =>
    intro vals' rest' hp
    simp only [parseFlags, hc] at hp
    exact absurd hp (by simp)
  | case5 vals s rest nm val hc hf hh =>
    intro vals' rest' hp
    simp only [parseFlags, hc, hf, if_pos hh] at hp
    exact absurd hp (by simp)
  | case6 vals s rest nm val hc hf hh =>
    intro vals' rest' hp
    simp only [parseFlags, hc, hf, if_neg hh] at hp
    exact absurd hp (by simp)
  | case7 vals s rest nm f hf hb v b hpb hc ih =>
    intro vals' rest' hp
    simp only [parseFlags, hc, hf, hb, if_true, hpb] at hp
    exact le_trans (ih vals' rest' hp) (by simp)
  | case8 vals s rest nm f hf hb v hpb hc =>
    intro vals' rest' hp
    simp only [parseFlags, hc, hf, hb, if_true, hpb] at hp
    exact absurd hp (by simp)
  | case9 vals s rest nm f hf hb hc ih =>
    intro vals' rest' hp
    simp only [parseFlags, hc, hf, hb, if_true] at hp
    exact le_trans (ih vals' rest' hp) (by simp)
  | case10 vals s rest nm f hf hb v hc ih =>
    intro vals' rest' hp
    simp only [parseFlags, hc, hf, if_neg hb] at hp
    exact le_trans (ih vals' rest' hp) (by simp)
  | case11 vals s nm f hf hb v rest2 hc ih =>
    intro vals' rest' hp
    simp only [parseFlags, hc, hf, if_neg hb] at hp
    refine le_trans (ih vals' rest' hp) (by simp only [List.length_cons]; omega)
  | case12 vals s nm f hf hb hc =>
    intro vals' rest' hp
    simp only [parseFlags, hc, hf, if_neg hb] at hp
    exact absurd hp (by simp)

theorem parse_sub (fs : FlagSet) (vals : List (String × String)) (args : List String) :
    ∀ vals' rest, parseFlags fs vals args = .ok vals' rest → ∀ x ∈ rest, x ∈ args := by
  induction vals, args using parseFlags.induct fs with
  | case1 vals => intro vals' rest hp; cases hp; intro x hx; cases hx
  | case2 vals s rest hc =>
    intro vals' rest' hp
    simp only [parseFlags, hc] at hp
    cases hp; exact fun x hx => hx
  | case3 vals s rest hc =>
    intro vals' rest' hp
    simp only [parseFlags, hc] at hp
    cases hp; exact fun x hx => List.mem_cons_of_mem _ hx
  | case4 vals s rest hc =>
    intro vals' rest' hp
    simp only [parseFlags, hc] at hp
    exact absurd hp (by simp)
  | case5 vals s rest nm val hc hf hh =>
    intro vals' rest' hp
    simp only [parseFlags, hc, hf, if_pos hh] at hp
    exact absurd hp (by simp)
  | case6 vals s rest nm val hc hf hh =>
    intro vals' rest' hp
    simp only [parseFlags, hc, hf, if_neg hh] at hp
    exact absurd hp (by simp)
  | case7 vals s rest nm f hf hb v b hpb hc ih =>
    intro vals' rest' hp
    simp only [parseFlags, hc, hf, hb, if_true, hpb] at hp
    exact fun x hx => List.mem_cons_of_mem _ (ih vals' rest' hp x hx)
  | case8 vals s rest nm f hf hb v hpb hc =>
    intro vals' rest' hp
    simp only [parseFlags, hc, hf, hb, if_true, hpb] at hp
    exact absurd hp (by simp)
  | case9 vals s rest nm f hf hb hc ih =>
    intro vals' rest' hp
    simp only [parseFlags, hc, hf, hb, if_true] at hp
    exact fun x hx => List.mem_cons_of_mem _ (ih vals' rest' hp x hx)
  | case10 vals s rest nm f hf hb v hc ih =>
    intro vals' rest' hp
    simp only [parseFlags, hc, hf, if_neg hb] at hp
    exact fun x hx => List.mem_cons_of_mem _ (ih vals' rest' hp x hx)
  | case11 vals s nm f hf hb v rest2 hc ih =>
    intro vals' rest' hp
    simp only [parseFlags, hc, hf, if_neg hb] at hp
    exact fun x hx => List.mem_cons_of_mem _ (List.mem_cons_of_mem _ (ih vals' rest' hp x hx))
  | case12 vals s nm f hf hb hc =>
    intro vals' rest' hp
    simp only [parseFlags, hc, hf, if_neg hb] at hp
    exact absurd hp (by simp)

theorem getVal_setValue (vals : List (String × String)) (m v n : String) (h : n ≠ m) :
    getVal (setValue vals m v) n = getVal vals n := by
  induction vals with
  | nil => rfl
  | cons p rest ih =>
    by_cases hpm : p.fst = m
    · simp only [setValue, List.map_cons, if_pos hpm, getVal]
      rw [if_neg (fun hnm => h hnm.symm), if_neg (by rw [hpm]; exact fun hnm => h hnm.symm)]
      exact ih
    · simp only [setValue, List.map_cons, if_neg hpm, getVal]
      by_cases hpn : p.fst = n
      · rw [if_pos hpn, if_pos hpn]
      · rw [if_neg hpn, if_neg hpn]
        exact ih

theorem parse_keep (fs : FlagSet) (vals : List (String × String)) (args : List String) (n : String) :
    ∀ vals' rest, parseFlags fs vals args = .ok vals' rest →
      (∀ tok ∈ args, suppliesFlag tok n = false) →
      getVal vals' n = getVal vals n := by
  induction vals, args using parseFlags.induct fs with
  | case1 vals => intro vals' rest hp hs; cases hp; rfl
  | case2 vals s rest hc =>
    intro vals' rest' hp hs
    simp only [parseFlags, hc] at hp
    cases hp; rfl
  | case3 vals s rest hc =>
    intro vals' rest' hp hs
    simp only [parseFlags, hc] at hp
    cases hp; rfl
  | case4 vals s rest hc =>
    intro vals' rest' hp hs
    simp only [parseFlags, hc] at hp
    exact absurd hp (by simp)
  | case5 vals s rest nm val hc hf hh =>
    intro vals' rest' hp hs
    simp only [parseFlags, hc, hf, if_pos hh] at hp
    exact absurd hp (by simp)
  | case6 vals s rest nm val hc hf hh =>
    intro vals' rest' hp hs
    simp only [parseFlags, hc, hf, if_neg hh] at hp
    exact absurd hp (by simp)
  | case7 vals s rest nm f hf hb v b hpb hc ih =>
    intro vals' rest' hp hs
    simp only [parseFlags, hc, hf, hb, if_true, hpb] at hp
    have hnm : n ≠ nm := by
      have := hs s (List.mem_cons_self _ _)
      simp only [suppliesFlag, hc, decide_eq_false_iff_not] at this
      exact fun hEq => this hEq.symm
    rw [ih vals' rest' hp (fun tok ht => hs tok (List.mem_cons_of_mem _ ht))]
    exact getVal_setValue vals nm _ n hnm
  | case8 vals s rest nm f hf hb v hpb hc =>
    intro vals' rest' hp hs
    simp only [parseFlags, hc, hf, hb, if_true, hpb] at hp
    exact absurd hp (by simp)
  | case9 vals s rest nm f hf hb hc ih =>
    intro vals' rest' hp hs
    simp only [parseFlags, hc, hf, hb, if_true] at hp
    have hnm : n ≠ nm := by
      have := hs s (List.mem_cons_self _ _)
      simp only [suppliesFlag, hc, decide_eq_false_iff_not] at this
      exact fun hEq => this hEq.symm
    rw [ih vals' rest' hp (fun tok ht => hs tok (List.mem_cons_of_mem _ ht))]
    exact getVal_setValue vals nm _ n hnm
  | case10 vals s rest nm f hf hb v hc ih =>
    intro vals' rest' hp hs
    simp only [parseFlags, hc, hf, if_neg hb] at hp
    have hnm : n ≠ nm := by
      have := hs s (List.mem_cons_self _ _)
      simp only [suppliesFlag, hc, decide_eq_false_iff_not] at this
      exact fun hEq => this hEq.symm
    rw [ih vals' rest' hp (fun tok ht => hs tok (List.mem_cons_of_mem _ ht))]
    exact getVal_setValue vals nm _ n hnm
  | case11 vals s nm f hf hb v rest2 hc ih =>
    intro vals' rest' hp hs
    simp only [parseFlags, hc, hf, if_neg hb] at hp
    have hnm : n ≠ nm := by
      have := hs s (List.mem_cons_self _ _)
      simp only [suppliesFlag, hc, decide_eq_false_iff_not] at this
      exact fun hEq => this hEq.symm
    rw [ih vals' rest' hp (fun tok ht => hs tok (List.mem_cons_of_mem _ (List.mem_cons_of_mem _ ht)))]
    exact getVal_setValue vals nm _ n hnm
  | case12 vals s nm f hf hb hc =>
    intro vals' rest' hp hs
    simp only [parseFlags, hc, hf, if_neg hb] at hp
    exact absurd hp (by simp)

theorem parse_stop (fs : FlagSet) (vals : List (String × String)) (s : String) (rest : List String)
    (hc : classifyTok s = .stop) : parseFlags fs vals (s :: rest) = .ok vals (s :: rest) := by
  simp only [parseFlags, hc]

theorem parse_helpTok (fs : FlagSet) (vals : List (String × String)) (s : String) (rest : List String)
    (nm : String) (val : Option String) (hc : classifyTok s = .flag nm val)
    (hf : findFlag fs nm = none) (hh : nm = "help" ∨ nm = "h") :
    parseFlags fs vals (s :: rest) = .help := by
  simp only [parseFlags, hc, hf, if_pos hh]

theorem runAtF_congr (f1 : Nat) : ∀ (f2 : Nat) (c : Cmd) (path args : List String),
    args.length < f1 → args.length < f2 → runAtF f1 c path args = runAtF f2 c path args := by
  induction f1 with
  | zero => intro f2 c path args h1 h2; omega
  | succ f1 ih =>
    intro f2 c path args h1 h2
    cases f2 with
    | zero => omega
    | succ f2 =>
      by_cases hname : (cflags c).name = ""
      · simp [runAtF, hname]
      · cases hp : parseFlags (cflags c) (defaults (cflags c)) args with
        | help => simp [runAtF, hname, hp]
        | err m => simp [runAtF, hname, hp]
        | ok vals rest =>
          cases rest with
          | nil => simp [runAtF, hname, hp]
          | cons tok rest2 =>
            cases hfind : (effectiveChildren c).find? (fun s => decide (cname s = tok)) with
            | none => simp [runAtF, hname, hp, hfind]
            | some child =>
              have hlen : rest2.length < args.length := by
                have := parse_len (cflags c) (defaults (cflags c)) args vals (tok :: rest2) hp
                simp only [List.length_cons] at this
                omega
              have hrec := ih f2 child (path ++ [tok]) rest2 (by omega) (by omega)
              simp [runAtF, hname, hp, hfind, hrec]

theorem runAt_cfg (c : Cmd) (path args : List String) (hname : (cflags c).name = "") :
    runAt c path args = RunOut.mk .cfgError [path] [] [] := by
  simp [runAt, runAtF, hname]

theorem runAt_help (c : Cmd) (path args : List String) (hname : ¬ (cflags c).name = "")
    (hp : parseFlags (cflags c) (defaults (cflags c)) args = .help) :
    runAt c path args = RunOut.mk .helpExit [path] [] [] := by
  simp [runAt, runAtF, hname, hp]

theorem runAt_flagErr (c : Cmd) (path args : List String) (m : String) (hname : ¬ (cflags c).name = "")
    (hp : parseFlags (cflags c) (defaults (cflags c)) args = .err m) :
    runAt c path args = RunOut.mk (.flagError m) [path] [] [] := by
  simp [runAt, runAtF, hname, hp]

theorem runAt_exhausted (c : Cmd) (path args : List String) (vals : List (String × String))
    (hname : ¬ (cflags c).name = "")
    (hp : parseFlags (cflags c) (defaults (cflags c)) args = .ok vals []) :
    runAt c path args = RunOut.mk (.done (actErr c)) [path] [(path, [])] [(path, cflags c, vals)] := by
  simp [runAt, runAtF, hname, hp]

theorem runAt_noChild (c : Cmd) (path args : List String) (vals : List (String × String))
    (tok : String) (rest2 : List String) (hname : ¬ (cflags c).name = "")
    (hp : parseFlags (cflags c) (defaults (cflags c)) args = .ok vals (tok :: rest2))
    (hfind : (effectiveChildren c).find? (fun s => decide (cname s = tok)) = none) :
    runAt c path args
      = RunOut.mk (.done (actErr c)) [path] [(path, tok :: rest2)] [(path, cflags c, vals)] := by
  simp [runAt, runAtF, hname, hp, hfind]

theorem runAt_descend (c : Cmd) (path args : List String) (vals : List (String × String))
    (tok : String) (rest2 : List String) (child : Cmd) (hname : ¬ (cflags c).name = "")
    (hp : parseFlags (cflags c) (defaults (cflags c)) args = .ok vals (tok :: rest2))
    (hfind : (effectiveChildren c).find? (fun s => decide (cname s = tok)) = some child) :
    runAt c path args
      = RunOut.mk (runAt child (path ++ [tok]) rest2).outcome
          (path :: (runAt child (path ++ [tok]) rest2).calls)
          (runAt child (path ++ [tok]) rest2).invoked
          ((path, cflags c, vals) :: (runAt child (path ++ [tok]) rest2).bindings) := by
  have hlen : rest2.length < args.length := by
    have := parse_len (cflags c) (defaults (cflags c)) args vals (tok :: rest2) hp
    simp only [List.length_cons] at this
    omega
  have hrec : runAtF args.length child (path ++ [tok]) rest2 = runAt child (path ++ [tok]) rest2 :=
    runAtF_congr args.length (rest2.length + 1) child (path ++ [tok]) rest2 hlen (by omega)
  simp [runAt, runAtF, hname, hp, hfind, hrec]

theorem descend_mem_chain (names : List String) : ∀ (c node : Cmd),
    descend c names = some node → node ∈ chainNodes c names := by
  induction names with
  | nil =>
    intro c node h
    simp only [descend, Option.some.injEq] at h
    subst h
    simp [chainNodes]
  | cons n ns ih =>
    intro c node h
    cases hfind : (effectiveChildren c).find? (fun s => decide (cname s = n)) with
    | none => simp [descend, hfind] at h
    | some child =>
      simp only [descend, hfind] at h
      simp only [chainNodes, hfind]
      exact List.mem_cons_of_mem _ (ih child node h)

theorem chain_run (names : List String) : ∀ (c node : Cmd) (path tail : List String),
    descend c names = some node →
    (∀ n ∈ names, classifyTok n = .stop) →
    (∀ d ∈ chainNodes c names, ¬ (cflags d).name = "") →
    (runAt c path (names ++ tail)).outcome = (runAt node (path ++ names) tail).outcome ∧
    (runAt c path (names ++ tail)).invoked = (runAt node (path ++ names) tail).invoked := by
  induction names with
  | nil =>
    intro c node path tail hd _ _
    simp only [descend, Option.some.injEq] at hd
    subst hd
    simp
  | cons n ns ih =>
    intro c node path tail hd hstop hne
    cases hfind : (effectiveChildren c).find? (fun s => decide (cname s = n)) with
    | none => simp [descend, hfind] at hd
    | some child =>
      simp only [descend, hfind] at hd
      have hcname : ¬ (cflags c).name = "" := by
        apply hne c
        simp [chainNodes, hfind]
      have hparse : parseFlags (cflags c) (defaults (cflags c)) ((n :: ns) ++ tail)
          = .ok (defaults (cflags c)) (n :: (ns ++ tail)) := by
        simpa using parse_stop (cflags c) (defaults (cflags c)) n (ns ++ tail) (hstop n (by simp))
      have hstep := runAt_descend c path ((n :: ns) ++ tail) (defaults (cflags c)) n (ns ++ tail)
        child hcname hparse hfind
      have hih := ih child node (path ++ [n]) tail hd
        (fun m hm => hstop m (List.mem_cons_of_mem _ hm))
        (fun d hdm => hne d (by simp only [chainNodes, hfind, List.mem_cons]; exact Or.inr hdm))
      rw [hstep]
      constructor
      · simpa [List.append_assoc] using hih.1
      · simpa [List.append_assoc] using hih.2

theorem runAtF_ne_invalid (fuel : Nat) : ∀ (c : Cmd) (path args : List String),
    ¬ (runAtF fuel c path args).outcome = .invalidArg := by
  induction fuel with
  | zero => intro c path args; simp [runAtF]
  | succ fuel ih =>
    intro c path args
    by_cases hname : (cflags c).name = ""
    · simp [runAtF, hname]
    · cases hp : parseFlags (cflags c) (defaults (cflags c)) args with
      | help => simp [runAtF, hname, hp]
      | err m => simp [runAtF, hname, hp]
      | ok vals rest =>
        cases rest with
        | nil => simp [runAtF, hname, hp]
        | cons tok rest2 =>
          cases hfind : (effectiveChildren c).find? (fun s => decide (cname s = tok)) with
          | none => simp [runAtF, hname, hp, hfind]
          | some child =>
            simp only [runAtF, hname, hp, hfind, if_neg hname]
            exact ih child (path ++ [tok]) rest2

theorem runAtF_invoked_le_one (fuel : Nat) : ∀ (c : Cmd) (path args : List String),
    (runAtF fuel c path args).invoked.length ≤ 1 := by
  induction fuel with
  | zero => intro c path args; simp [runAtF]
  | succ fuel ih =>
    intro c path args
    by_cases hname : (cflags c).name = ""
    · simp [runAtF, hname]
    · cases hp : parseFlags (cflags c) (defaults (cflags c)) args with
      | help => simp [runAtF, hname, hp]
      | err m => simp [runAtF, hname, hp]
      | ok vals rest =>
        cases rest with
        | nil => simp [runAtF, hname, hp]
        | cons tok rest2 =>
          cases hfind : (effectiveChildren c).find? (fun s => decide (cname s = tok)) with
          | none => simp [runAtF, hname, hp, hfind]
          | some child =>
            simp only [runAtF, hname, hp, hfind, if_neg hname]
            exact ih child (path ++ [tok]) rest2

theorem getVal_map_defaults : ∀ (l : List Flag) (f : Flag), (l.map Flag.name).Nodup → f ∈ l →
    getVal (l.map (fun g => (g.name, g.defVal))) f.name = some f.defVal := by
  intro l
  induction l with
  | nil => intro f _ hf; cases hf
  | cons g rest ih =>
    intro f hnd hf
    simp only [List.map_cons, List.nodup_cons] at hnd
    rcases List.mem_cons.mp hf with hfg | hfr
    · subst hfg
      simp [getVal]
    · have hne : g.name ≠ f.name := by
        intro hEq
        exact hnd.1 (hEq ▸ List.mem_map_of_mem Flag.name hfr)
      simp only [List.map_cons, getVal, if_neg hne]
      exact ih f hnd.2 hfr

theorem runAtF_defaults (fuel : Nat) : ∀ (c : Cmd) (path args p : List String)
    (fs : FlagSet) (vals : List (String × String)) (f : Flag),
    args.length < fuel →
    (p, fs, vals) ∈ (runAtF fuel c path args).bindings →
    (fs.flags.map Flag.name).Nodup →
    f ∈ fs.flags →
    (∀ tok ∈ args, suppliesFlag tok f.name = false) →
    getVal vals f.name = some f.defVal := by
  induction fuel with
  | zero => intro c path args p fs vals f hfuel; omega
  | succ fuel ih =>
    intro c path args p fs vals f hfuel hmem hnd hq hs
    by_cases hname : (cflags c).name = ""
    · simp [runAtF, hname] at hmem
    · cases hp : parseFlags (cflags c) (defaults (cflags c)) args with
      | help => simp [runAtF, hname, hp] at hmem
      | err m => simp [runAtF, hname, hp] at hmem
      | ok vals0 rest =>
        cases rest with
        | nil =>
          simp only [runAtF, if_neg hname, hp, List.mem_singleton, Prod.mk.injEq] at hmem
          obtain ⟨_, hfs, hvals⟩ := hmem
          rw [hvals, parse_keep (cflags c) (defaults (cflags c)) args f.name vals0 [] hp hs, ← hfs]
          exact getVal_map_defaults fs.flags f hnd hq
        | cons tok rest2 =>
          cases hfind : (effectiveChildren c).find? (fun s => decide (cname s = tok)) with
          | none =>
            simp only [runAtF, if_neg hname, hp, hfind, List.mem_singleton, Prod.mk.injEq] at hmem
            obtain ⟨_, hfs, hvals⟩ := hmem
            rw [hvals, parse_keep (cflags c) (defaults (cflags c)) args f.name vals0 (tok :: rest2) hp hs, ← hfs]
            exact getVal_map_defaults fs.flags f hnd hq
          | some child =>
            simp only [runAtF, if_neg hname, hp, hfind, List.mem_cons, Prod.mk.injEq] at hmem
            rcases hmem with ⟨_, hfs, hvals⟩ | hmem
            · rw [hvals, parse_keep (cflags c) (defaults (cflags c)) args f.name vals0 (tok :: rest2) hp hs, ← hfs]
              exact getVal_map_defaults fs.flags f hnd hq
            · have hlen : rest2.length < args.length := by
                have := parse_len (cflags c) (defaults (cflags c)) args vals0 (tok :: rest2) hp
                simp only [List.length_cons] at this
                omega
              refine ih child (path ++ [tok]) rest2 p fs vals f (by omega) hmem hnd hq ?_
              intro tok2 ht2
              exact hs tok2 (parse_sub (cflags c) (defaults (cflags c)) args vals0 (tok :: rest2) hp
                tok2 (List.mem_cons_of_mem _ ht2))

def descendProp (path : List String) (out : RunOut) : Prop :=
  (∃ t, out.calls = path :: t) ∧
  (∀ q ∈ out.calls, ∃ u, q = path ++ u) ∧
  out.calls.Nodup ∧
  (∀ pr ∈ out.invoked,
    (∃ u, pr.fst = path ++ u) ∧
    (∀ q, (∃ u, q = path ++ u) → (∃ u, pr.fst = q ++ u) → q ∈ out.calls))

theorem between_eq (path q u v : List String) (h1 : q = path ++ u) (h2 : path = q ++ v) :
    q = path := by
  subst h1
  have hl := congrArg List.length h2
  simp only [List.length_append] at hl
  have hu : u.length = 0 := by omega
  rw [List.eq_nil_of_length_eq_zero hu, List.append_nil]

theorem descendProp_noinv (path : List String) (o : Outcome)
    (binds : List (List String × FlagSet × List (String × String))) :
    descendProp path (RunOut.mk o [path] [] binds) := by
  refine ⟨⟨[], rfl⟩, ?_, by simp, by simp⟩
  intro q hq
  simp only [List.mem_singleton] at hq
  exact ⟨[], by simp [hq]⟩

theorem descendProp_inv (path : List String) (o : Outcome) (x : List String)
    (binds : List (List String × FlagSet × List (String × String))) :
    descendProp path (RunOut.mk o [path] [(path, x)] binds) := by
  refine ⟨⟨[], rfl⟩, ?_, by simp, ?_⟩
  · intro q hq
    simp only [List.mem_singleton] at hq
    exact ⟨[], by simp [hq]⟩
  · intro pr hpr
    simp only [List.mem_singleton] at hpr
    subst hpr
    refine ⟨⟨[], by simp⟩, ?_⟩
    rintro q ⟨u, hq⟩ ⟨v, hqp⟩
    have hq2 : q = path := between_eq path q u v hq (by simpa using hqp)
    simp [hq2]

theorem runAtF_descendProp (fuel : Nat) : ∀ (c : Cmd) (path args : List String),
    args.length < fuel → descendProp path (runAtF fuel c path args) := by
  induction fuel with
  | zero => intro c path args h; omega
  | succ fuel ih =>
    intro c path args hfuel
    by_cases hname : (cflags c).name = ""
    · simp only [runAtF, if_pos hname]
      exact descendProp_noinv path _ _
    · cases hp : parseFlags (cflags c) (defaults (cflags c)) args with
      | help =>
        simp only [runAtF, if_neg hname, hp]
        exact descendProp_noinv path _ _
      | err m =>
        simp only [runAtF, if_neg hname, hp]
        exact descendProp_noinv path _ _
      | ok vals rest =>
        cases rest with
        | nil =>
          simp only [runAtF, if_neg hname, hp]
          exact descendProp_inv path _ _ _
        | cons tok rest2 =>
          cases hfind : (effectiveChildren c).find? (fun s => decide (cname s = tok)) with
          | none =>
            simp only [runAtF, if_neg hname, hp, hfind]
            exact descendProp_inv path _ _ _
          | some child =>
            have hlen : rest2.length < args.length := by
              have := parse_len (cflags c) (defaults (cflags c)) args vals (tok :: rest2) hp
              simp only [List.length_cons] at this
              omega
            obtain ⟨⟨t0, hhead⟩, hext, hnd, hinv⟩ :=
              ih child (path ++ [tok]) rest2 (by omega)
            simp only [runAtF, if_neg hname, hp, hfind]
            refine ⟨⟨(runAtF fuel child (path ++ [tok]) rest2).calls, rfl⟩, ?_, ?_, ?_⟩
            · intro q hq
              rcases List.mem_cons.mp hq with hq | hq
              · exact ⟨[], by simp [hq]⟩
              · obtain ⟨u, hu⟩ := hext q hq
                exact ⟨tok :: u, by simp [hu, List.append_assoc]⟩
            · refine List.nodup_cons.mpr ⟨?_, hnd⟩
              intro hmem
              obtain ⟨u, hu⟩ := hext path hmem
              have := congrArg List.length hu
              simp only [List.length_append, List.length_cons, List.length_nil] at this
              omega
            · intro pr hpr
              obtain ⟨⟨w, hw⟩, hqmem⟩ := hinv pr hpr
              refine ⟨⟨tok :: w, by simp [hw, List.append_assoc]⟩, ?_⟩
              rintro q ⟨u, hq⟩ ⟨v, hqp⟩
              cases u with
              | nil =>
                rw [List.append_nil] at hq
                simp [hq]
              | cons t u2 =>
                have h2 : path ++ ([tok] ++ w) = (path ++ (t :: u2)) ++ v := by
                  rw [← List.append_assoc]
                  rw [← hw, hqp, hq]
                rw [List.append_assoc] at h2
                have h3 := List.append_cancel_left h2
                simp only [List.singleton_append, List.cons_append] at h3
                have htok : tok = t ∧ w = u2 ++ v := by
                  have := List.cons.injEq tok w t (u2 ++ v) ▸ h3
                  exact this
                apply List.mem_cons_of_mem
                apply hqmem q
                · refine ⟨u2, ?_⟩
                  rw [hq, htok.1, List.append_assoc]
                  simp
                · exact ⟨v, hqp⟩

theorem find_app_some {α : Type} (p : α → Bool) : ∀ (l1 l2 : List α) (a : α),
    l1.find? p = some a → (l1 ++ l2).find? p = some a := by
  intro l1
  induction l1 with
  | nil => intro l2 a h; simp [List.find?] at h
  | cons x xs ih =>
    intro l2 a h
    by_cases hx : p x
    · rw [List.find?_cons_of_pos _ hx] at h
      rw [List.cons_append, List.find?_cons_of_pos _ hx]
      exact h
    · rw [List.find?_cons_of_neg _ (by simpa using hx)] at h
      rw [List.cons_append, List.find?_cons_of_neg _ (by simpa using hx)]
      exact ih l2 a h

theorem find_first {α : Type} (p : α → Bool) : ∀ (pre : List α) (c : α) (rest : List α),
    (∀ d ∈ pre, p d = false) → p c = true → (pre ++ c :: rest).find? p = some c := by
  intro pre
  induction pre with
  | nil =>
    intro c rest _ hc
    rw [List.nil_append, List.find?_cons_of_pos _ hc]
  | cons x xs ih =>
    intro c rest hpre hc
    rw [List.cons_append, List.find?_cons_of_neg _ (by simp [hpre x (List.mem_cons_self x xs)])]
    exact ih c rest (fun d hd => hpre d (List.mem_cons_of_mem _ hd)) hc

theorem find_exists {α : Type} (p : α → Bool) : ∀ (l : List α), (∃ x ∈ l, p x = true) →
    ∃ w, l.find? p = some w ∧ w ∈ l ∧ p w = true := by
  intro l
  induction l with
  | nil => rintro ⟨x, hx, _⟩; cases hx
  | cons y ys ih =>
    rintro ⟨x, hx, hpx⟩
    by_cases hy : p y
    · exact ⟨y, by rw [List.find?_cons_of_pos _ hy], List.mem_cons_self _ _, hy⟩
    · rcases List.mem_cons.mp hx with h | h
      · subst h; exact absurd hpx hy
      · obtain ⟨w, hw1, hw2, hw3⟩ := ih ⟨x, h, hpx⟩
        refine ⟨w, ?_, List.mem_cons_of_mem _ hw2, hw3⟩
        rw [List.find?_cons_of_neg _ (by simpa using hy)]
        exact hw1



theorem count_one_of_nodup {α : Type} [BEq α] [LawfulBEq α] (l : List α) (a : α)
    (hnd : l.Nodup) (hm : a ∈ l) : l.count a = 1 := by
  induction l with
  | nil => cases hm
  | cons x xs ih =>
    rw [List.count_cons]
    rcases List.mem_cons.mp hm with h | h
    · subst h
      have hnx : a ∉ xs := (List.nodup_cons.mp hnd).1
      rw [List.count_eq_zero.mpr hnx]
      simp
    · have hx : ¬ a = x := by
        intro hEq
        subst hEq
        exact (List.nodup_cons.mp hnd).1 h
      rw [ih (List.nodup_cons.mp hnd).2 h]
      simp only [Nat.add_eq_left, ite_eq_right_iff, beq_iff_eq]
      intro hEq
      exact absurd hEq.symm hx

/-- C1: For every command tree and every argument list that names a path of
exact child names (tokens that do not look like flags) followed by tokens the
leaf's FlagSet parses successfully, `Run` resolves to exactly the leaf whose
name sequence matches the consumed prefix of the arguments: that leaf's
ActionFunc is the only one invoked, it receives exactly the positional tokens
remaining after the matched name prefix and all parsed flags are removed, and
`Run` returns the action's own result. -/
theorem claim_C1 (cl : FlagSet) (cmds : List Cmd) (names tail : List String)
    (lfs : FlagSet) (e : Option String) (vals : List (String × String)) (rest : List String)
    (hd : descend (Cmd.group cl cmds "") names = some (Cmd.leaf lfs e))
    (hstop : ∀ n ∈ names, classifyTok n = .stop)
    (hne : ∀ d ∈ chainNodes (Cmd.group cl cmds "") names, ¬ (cflags d).name = "")
    (hp : parseFlags lfs (defaults lfs) tail = .ok vals rest) :
    (Run cl (some cmds) (names ++ tail)).outcome = .done e ∧
    (Run cl (some cmds) (names ++ tail)).invoked = [(names, rest)] := by
  have hchain := chain_run names (Cmd.group cl cmds "") (Cmd.leaf lfs e) [] tail hd hstop hne
  have hleafname : ¬ (cflags (Cmd.leaf lfs e)).name = "" :=
    hne _ (descend_mem_chain names _ _ hd)
  have hleaf : runAt (Cmd.leaf lfs e) ([] ++ names) tail
      = RunOut.mk (.done e) [[] ++ names] [(([] ++ names), rest)] [(([] ++ names), lfs, vals)] := by
    cases rest with
    | nil => exact runAt_exhausted (Cmd.leaf lfs e) ([] ++ names) tail vals hleafname hp
    | cons t r2 => exact runAt_noChild (Cmd.leaf lfs e) ([] ++ names) tail vals t r2 hleafname hp rfl
  constructor
  · show (runAt (Cmd.group cl cmds "") [] (names ++ tail)).outcome = .done e
    rw [hchain.1, hleaf]
  · show (runAt (Cmd.group cl cmds "") [] (names ++ tail)).invoked = [(names, rest)]
    rw [hchain.2, hleaf]
    simp

/-- C1 witness: Scenario 1 of the spec (src/run_test.go:70-78): on the test
tree, arguments ["db", "scan", "db-scan-argument"] invoke the db.scan action
with exactly ["db-scan-argument"] and Run returns nil. -/
theorem claim_C1_witness :
    (Run testCL (some testCmds) (["db", "scan"] ++ ["db-scan-argument"])).outcome = .done none ∧
    (Run testCL (some testCmds) (["db", "scan"] ++ ["db-scan-argument"])).invoked
      = [(["db", "scan"], ["db-scan-argument"])] :=
  claim_C1 testCL testCmds ["db", "scan"] ["db-scan-argument"] ⟨"scan", []⟩ none []
    ["db-scan-argument"] rfl (by decide) (by decide) rfl

/-- C2 counterexample: the claim fails as stated when a command declares its
own flag named "h".  Under the standard flag-parsing semantics the spec
appeals to, a defined flag wins over the help special case, so running
[`run`, `-h`] against a `run` command with a boolean flag `h` sets that flag
and invokes the ActionFunc, contradicting "no ActionFunc of any command is
invoked". -/
theorem claim_C2_counterexample :
    (Run testCL (some [shadowHLeaf]) ["run", "-h"]).invoked = [(["run"], [])] ∧
    ¬ (Run testCL (some [shadowHLeaf]) ["run", "-h"]).invoked = [] ∧
    errorOf (Run testCL (some [shadowHLeaf]) ["run", "-h"]).outcome = none := by
  decide

/-- C2 (amended): for every command tree and every argument position at which
flag parsing begins (root or any resolved subcommand), supplying the flag -h
(resp. -help), provided the node declares no flag of that name, makes Run
return nil (not an error) after the usage early exit, and no ActionFunc of any
command is invoked during that Run call. -/
theorem claim_C2 (cl : FlagSet) (cmds : List Cmd) (names : List String) (node : Cmd)
    (tok : String) (rest : List String)
    (hd : descend (Cmd.group cl cmds "") names = some node)
    (hstop : ∀ n ∈ names, classifyTok n = .stop)
    (hne : ∀ d ∈ chainNodes (Cmd.group cl cmds "") names, ¬ (cflags d).name = "")
    (htok : (tok = "-h" ∧ findFlag (cflags node) ("h") = none) ∨
            (tok = "-help" ∧ findFlag (cflags node) ("help") = none)) :
    errorOf (Run cl (some cmds) (names ++ tok :: rest)).outcome = none ∧
    (Run cl (some cmds) (names ++ tok :: rest)).outcome = .helpExit ∧
    (Run cl (some cmds) (names ++ tok :: rest)).invoked = [] := by
  have hchain := chain_run names (Cmd.group cl cmds "") node [] (tok :: rest) hd hstop hne
  have hnodename : ¬ (cflags node).name = "" :=
    hne _ (descend_mem_chain names _ _ hd)
  have hparse : parseFlags (cflags node) (defaults (cflags node)) (tok :: rest) = .help := by
    rcases htok with ⟨htok, hf⟩ | ⟨htok, hf⟩
    · subst htok
      exact parse_helpTok (cflags node) (defaults (cflags node)) "-h" rest "h" none
        (by decide) hf (Or.inr rfl)
    · subst htok
      exact parse_helpTok (cflags node) (defaults (cflags node)) "-help" rest "help" none
        (by decide) hf (Or.inl rfl)
  have hnode := runAt_help node ([] ++ names) (tok :: rest) hnodename hparse
  refine ⟨?_, ?_, ?_⟩
  · show errorOf (runAt (Cmd.group cl cmds "") [] (names ++ tok :: rest)).outcome = none
    rw [hchain.1, hnode]
    rfl
  · show (runAt (Cmd.group cl cmds "") [] (names ++ tok :: rest)).outcome = .helpExit
    rw [hchain.1, hnode]
  · show (runAt (Cmd.group cl cmds "") [] (names ++ tok :: rest)).invoked = []
    rw [hchain.2, hnode]

/-- C2 witness: Scenario 4 of the spec (src/run_test.go:100-105): arguments
["run", "-h"] return nil, outcome is the help early exit, and no ActionFunc
is invoked, although `run` declares its own `-background` flag. -/
theorem claim_C2_witness :
    errorOf (Run testCL (some testCmds) (["run"] ++ "-h" :: [])).outcome = none ∧
    (Run testCL (some testCmds) (["run"] ++ "-h" :: [])).outcome = .helpExit ∧
    (Run testCL (some testCmds) (["run"] ++ "-h" :: [])).invoked = [] :=
  claim_C2 testCL testCmds ["run"] runCmd "-h" [] rfl (by decide) (by decide)
    (Or.inl ⟨rfl, rfl⟩)

/-- C3: For every context and every argument list, calling Run with a nil
command list returns the invalid-argument error (os.ErrInvalid) immediately:
no Command's Command() method is called (empty call trace) and no ActionFunc
is invoked (empty invocation trace).  src/command.go:82-85. -/
theorem claim_C3 (cl : FlagSet) (args : List String) :
    Run cl none args = RunOut.mk .invalidArg [] [] [] := rfl

/-- C4: For every command tree and every argument list, during a single Run
invocation each node's Command() method is called at most once per node (the
trace of calls, with nodes identified by their name path, has no duplicates),
and exactly once for each node on the resolved path: every prefix of an
invoked action's path occurs in the call trace exactly once. -/
theorem claim_C4 (cl : FlagSet) (cmds : Option (List Cmd)) (args : List String) :
    (Run cl cmds args).calls.Nodup ∧
    (∀ p r, (p, r) ∈ (Run cl cmds args).invoked →
      ∀ q u, q ++ u = p → (Run cl cmds args).calls.count q = 1) := by
  cases cmds with
  | none =>
    refine ⟨by simp [Run], ?_⟩
    intro p r hm
    exact absurd hm (by simp [Run])
  | some cs =>
    have hprop := runAtF_descendProp (args.length + 1) (Cmd.group cl cs "") [] args (by omega)
    obtain ⟨_, _, hnd, hinv⟩ := hprop
    refine ⟨hnd, ?_⟩
    intro p r hm q u hqu
    have hq := (hinv (p, r) hm).2 q ⟨q, by simp⟩ ⟨u, hqu.symm⟩
    exact count_one_of_nodup (Run cl (some cs) args).calls q hnd hq

/-- C4 witness: on the test tree, resolving ["db", "scan", "x"] calls
Command() on a duplicate-free set of nodes, the intermediate node "db" on the
resolved path is called exactly once, and a run that ends in the help early
exit with no invocation (arguments ["-h"], spec Scenario 3) also has a
duplicate-free call trace. -/
theorem claim_C4_witness :
    (Run testCL (some testCmds) ["db", "scan", "x"]).calls.Nodup ∧
    (Run testCL (some testCmds) ["db", "scan", "x"]).calls.count ["db"] = 1 ∧
    (Run testCL (some testCmds) ["-h"]).calls.Nodup := by
  have h := claim_C4 testCL (some testCmds) ["db", "scan", "x"]
  exact ⟨h.1, h.2 ["db", "scan"] ["x"] (by decide) ["db"] ["scan"] rfl,
    (claim_C4 testCL (some testCmds) ["-h"]).1⟩

/-- C5: For every group whose children include two or more sibling commands
with the same name, resolution matches the earliest-registered sibling of
that name (first match wins): descent goes into `c1`, the sibling before
`c2`, whenever no still-earlier sibling shares the name.  The resolver is a
pure function, so the same sibling is selected on every repeated Run call
with the same tree and arguments. -/
theorem claim_C5 (fs : FlagSet) (pre mid post : List Cmd) (c1 c2 : Cmd) (syn : String)
    (path : List String) (tok : String) (rest : List String)
    (hname : ¬ fs.name = "")
    (htok : classifyTok tok = .stop)
    (hc1 : cname c1 = tok) (hc2 : cname c2 = tok)
    (hpre : ∀ d ∈ pre, ¬ cname d = tok) :
    runAt (Cmd.group fs (pre ++ c1 :: (mid ++ c2 :: post)) syn) path (tok :: rest)
      = RunOut.mk (runAt c1 (path ++ [tok]) rest).outcome
          (path :: (runAt c1 (path ++ [tok]) rest).calls)
          (runAt c1 (path ++ [tok]) rest).invoked
          ((path, fs, defaults fs) :: (runAt c1 (path ++ [tok]) rest).bindings) := by
  have hparse : parseFlags fs (defaults fs) (tok :: rest) = .ok (defaults fs) (tok :: rest) :=
    parse_stop fs (defaults fs) tok rest htok
  have hfind : (effectiveChildren (Cmd.group fs (pre ++ c1 :: (mid ++ c2 :: post)) syn)).find?
      (fun s => decide (cname s = tok)) = some c1 := by
    apply find_app_some
    apply find_first
    · intro d hd
      simp [hpre d hd]
    · simp [hc1]
  exact runAt_descend (Cmd.group fs (pre ++ c1 :: (mid ++ c2 :: post)) syn) path (tok :: rest)
    (defaults fs) tok rest c1 hname hparse hfind

/-- C5 witness: with two siblings both named "dup", resolution descends into
the earliest-registered one, whose action result ("first") becomes Run's. -/
theorem claim_C5_witness :
    runAt (Cmd.group ⟨"g", []⟩ ([] ++ dupFirst :: ([] ++ dupSecond :: [])) "") [] ["dup"]
      = RunOut.mk (runAt dupFirst ([] ++ ["dup"]) []).outcome
          ([] :: (runAt dupFirst ([] ++ ["dup"]) []).calls)
          (runAt dupFirst ([] ++ ["dup"]) []).invoked
          (([], ⟨"g", []⟩, defaults ⟨"g", []⟩) :: (runAt dupFirst ([] ++ ["dup"]) []).bindings)
    ∧ (runAt (Cmd.group ⟨"g", []⟩ [dupFirst, dupSecond] "") [] ["dup"]).outcome
        = .done (some "first") :=
  ⟨claim_C5 ⟨"g", []⟩ [] [] [] dupFirst dupSecond "" [] "dup" [] (by decide) (by decide)
    rfl rfl (fun d hd => absurd hd (List.not_mem_nil d)), by decide⟩

/-- C6: For every group node, the effective child list during resolution
contains the built-in child of each built-in name ("help", "flags",
"commands") unless a user-declared child of the same name exists; in that
case every effective child of that name comes from the user-declared list
(the built-in is not added) and name lookup matches a user-declared child. -/
theorem claim_C6 (fs : FlagSet) (subs : List Cmd) (syn : String) (b : String)
    (hb : b = "help" ∨ b = "flags" ∨ b = "commands") :
    ((∀ s ∈ subs, ¬ cname s = b) → Cmd.builtin b ∈ effectiveChildren (Cmd.group fs subs syn)) ∧
    (∀ u ∈ subs, cname u = b →
      (∀ x ∈ effectiveChildren (Cmd.group fs subs syn), cname x = b → x ∈ subs) ∧
      (∃ w, (effectiveChildren (Cmd.group fs subs syn)).find? (fun s => decide (cname s = b))
          = some w ∧ w ∈ subs ∧ cname w = b)) := by
  constructor
  · intro hsh
    have hmemB : Cmd.builtin b ∈ builtinCmds := by
      rcases hb with h | h | h <;> (subst h; simp [builtinCmds])
    refine List.mem_append.mpr (Or.inr (List.mem_filter.mpr ⟨hmemB, ?_⟩))
    rw [List.all_eq_true]
    intro s hs
    simpa [cname, cflags] using hsh s hs
  · intro u hu hcu
    constructor
    · intro x hx hcx
      rcases List.mem_append.mp hx with hx | hx
      · exact hx
      · exfalso
        have hall := (List.mem_filter.mp hx).2
        rw [List.all_eq_true] at hall
        have := hall u hu
        rw [decide_eq_true_iff] at this
        have hcnx : cname x = b := hcx
        have hbx : cname (Cmd.builtin b) = b := rfl
        have hxB : x ∈ builtinCmds := (List.mem_filter.mp hx).1
        apply this
        rw [hcu, hcx]
    · obtain ⟨w, hw1, hw2, hw3⟩ := find_exists (fun s => decide (cname s = b)) subs
        ⟨u, hu, by simp [hcu]⟩
      exact ⟨w, find_app_some _ subs _ w hw1, hw2, by simpa using hw3⟩

/-- C6 witness: with a single user child named "help", the built-in "flags"
child is still effective, while every effective child named "help" is the
user-declared one. -/
theorem claim_C6_witness :
    Cmd.builtin "flags" ∈ effectiveChildren (Cmd.group ⟨"g", []⟩ [Cmd.leaf ⟨"help", []⟩ none] "") ∧
    (∀ x ∈ effectiveChildren (Cmd.group ⟨"g", []⟩ [Cmd.leaf ⟨"help", []⟩ none] ""),
      cname x = "help" → x ∈ [Cmd.leaf ⟨"help", []⟩ none]) :=
  ⟨(claim_C6 ⟨"g", []⟩ [Cmd.leaf ⟨"help", []⟩ none] "" "flags" (by decide)).1
    (by intro s hs; rw [List.mem_singleton] at hs; subst hs; decide),
   fun x hx h =>
    ((claim_C6 ⟨"g", []⟩ [Cmd.leaf ⟨"help", []⟩ none] "" "help" (by decide)).2
      (Cmd.leaf ⟨"help", []⟩ none) (List.mem_singleton.mpr rfl) rfl).1 x hx h⟩

/-- C7: For every node reached during resolution (any node, path and
remaining arguments), if the FlagSet returned by that node's Command() method
has an empty name, the resolver fails immediately with a configuration error:
the call trace records only this node (no further Command() methods run) and
no ActionFunc is invoked. -/
theorem claim_C7 (c : Cmd) (path args : List String) (hname : (cflags c).name = "") :
    runAt c path args = RunOut.mk .cfgError [path] [] [] :=
  runAt_cfg c path args hname

/-- C7 witness: a leaf whose FlagSet name is empty aborts resolution at once
with the configuration error. -/
theorem claim_C7_witness :
    runAt (Cmd.leaf ⟨"", []⟩ none) [] ["x"] = RunOut.mk .cfgError [[]] [] [] :=
  claim_C7 (Cmd.leaf ⟨"", []⟩ none) [] ["x"] rfl

/-- C8: For every command tree and every argument list, at most one
ActionFunc is invoked during a single Run call: the invocation trace never
has more than one entry. -/
theorem claim_C8 (cl : FlagSet) (cmds : Option (List Cmd)) (args : List String) :
    (Run cl cmds args).invoked.length ≤ 1 := by
  cases cmds with
  | none => simp [Run]
  | some cs => exact runAtF_invoked_le_one (args.length + 1) (Cmd.group cl cs "") [] args

/-- C9: For every flag declared (with a default value) by a node whose flags
were parsed on the resolved path, if no argument token supplies that flag,
the flag's bound storage still holds the declared default value in the
bindings that the ActionFunc observes.  (Flag names within one FlagSet are
distinct, as Go's flag.FlagSet enforces by panicking on redefinition.) -/
theorem claim_C9 (cl : FlagSet) (cmds : List Cmd) (args p : List String) (fs : FlagSet)
    (vals : List (String × String)) (f : Flag)
    (hmem : (p, fs, vals) ∈ (Run cl (some cmds) args).bindings)
    (hnd : (fs.flags.map Flag.name).Nodup)
    (hf : f ∈ fs.flags)
    (hns : ∀ tok ∈ args, suppliesFlag tok f.name = false) :
    getVal vals f.name = some f.defVal :=
  runAtF_defaults (args.length + 1) (Cmd.group cl cmds "") [] args p fs vals f (by omega)
    hmem hnd hf hns

/-- C9 witness: resolving ["jobs", "list"] on the test tree leaves the
`-format` flag of the `list` leaf at its declared default "json" when the
list action runs. -/
theorem claim_C9_witness :
    getVal [("format", "json")] ("format") = some ("json") :=
  claim_C9 testCL testCmds ["jobs", "list"] ["jobs", "list"]
    ⟨"list", [⟨"format", false, "json"⟩]⟩ [("format", "json")] ⟨"format", false, "json"⟩
    (by decide) (by decide) (by decide) (by decide)

/-- C10: For every process-global flag set and argument list, calling Run
with a non-nil but empty command list is not rejected as an invalid argument:
the nil check passes, a root group with an empty child list is constructed
over the process-global flag set and resolution proceeds on it, and only the
built-in children are available at the root. -/
theorem claim_C10 (cl : FlagSet) (args : List String) :
    Run cl (some []) args = runAt (Cmd.group cl [] "") [] args ∧
    ¬ (Run cl (some []) args).outcome = .invalidArg ∧
    effectiveChildren (Cmd.group cl [] "") = builtinCmds := by
  refine ⟨rfl, ?_, rfl⟩
  exact runAtF_ne_invalid (args.length + 1) (Cmd.group cl [] "") [] args

end Subcmd
